import Mathlib

/-!
Verification of the MECEMap pipeline core.

Shallow embedding conventions:

* A 2D labeled slice (a numpy array of unsigned integer gray values) is a
  structure `Image` carrying its height, width and a total pixel function
  `ℕ → ℕ → ℕ`; only indices `i < h`, `j < w` are meaningful.
* Euclidean distances are represented by their squares.  The code compares
  real-valued Euclidean distances `dt` (from `scipy.ndimage.distance_transform_edt`)
  with `dt < running_min` and `dt <= max_distance`; since squaring is strictly
  monotone on nonnegative reals, comparing squared distances with the squared
  bound is an exact reduction.  The parameter `q : ℚ` below stands for
  `max_distance ** 2` (with `max_distance >= 0`).
* `np.inf` entries of the running-minimum buffer are modelled by `⊤` in
  `WithTop ℚ`.
* A 3D labeled volume is a structure `Volume` with dimensions `(d0, d1, d2)`
  (numpy axes 0, 1, 2) and data indexed by `Fin`.
* Fallible I/O steps (a missing file making the code crash) are modelled with
  `Option`.
-/

namespace MECEMap

/-! ## GapFiller: `utils/sdf_utils.py`, `fill_2d_image_gaps` -/

/-- A 2D labeled slice: height, width and the gray value of each pixel.
Pixels are addressed as `pix i j` with row `i < h` and column `j < w`. -/
structure Image where
  h : ℕ
  w : ℕ
  pix : ℕ → ℕ → ℕ

/-- All in-range pixel coordinates of an image, row major. -/
def pixelList (img : Image) : List (ℕ × ℕ) :=
  (List.range img.h).flatMap (fun i => (List.range img.w).map (fun j => (i, j)))

/-- Squared Euclidean distance between two pixel coordinates. -/
def distSq (p r : ℕ × ℕ) : ℕ :=
  (Nat.dist p.1 r.1) ^ 2 + (Nat.dist p.2 r.2) ^ 2

/-- The pixels of the binary mask `image == color_value` (source line
`mask = (image == color_value).astype(np.uint8)`). -/
def maskPixels (img : Image) (c : ℕ) : List (ℕ × ℕ) :=
  (pixelList img).filter (fun p => img.pix p.1 p.2 == c)

/-- `np.unique(image)` restricted to the nonzero values (the loop skips the
background color 0): the distinct nonzero gray values present in the image,
in ascending order. -/
def unique_colors (img : Image) : List ℕ :=
  List.insertionSort (· ≤ ·)
    ((((pixelList img).map (fun p => img.pix p.1 p.2)).dedup).filter (fun c => c != 0))

/-- Squared Euclidean distance transform of the complement of the mask of
color `c` (source: `dt = distance_transform_edt(1 - mask)`), evaluated at
pixel `p`: the minimum squared distance from `p` to a pixel of the mask,
`⊤` when the mask is empty. -/
def dtSq (img : Image) (c : ℕ) (p : ℕ × ℕ) : WithTop ℚ :=
  ((maskPixels img c).map (fun r => ((distSq p r : ℚ) : WithTop ℚ))).foldr min ⊤

/-- The two working buffers of the algorithm: `min_distances` (initialized to
`np.inf`) and `closest_values` (initialized to 0). -/
structure GapState where
  minD : ℕ → ℕ → WithTop ℚ
  closest : ℕ → ℕ → ℕ

/-- Initial state: `min_distances = np.full(shape, np.inf)`,
`closest_values = np.zeros(shape)`. -/
def gapInit : GapState := ⟨fun _ _ => ⊤, fun _ _ => 0⟩

/-- One iteration of the per-color loop (source lines 106-108):
`mask_update = (dt < min_distances) & (dt <= max_distance)`;
`min_distances[mask_update] = dt[mask_update]`;
`closest_values[mask_update] = color_value`.
`q` is the squared `max_distance`. -/
def gapStep (img : Image) (q : ℚ) (st : GapState) (c : ℕ) : GapState :=
  { minD := fun i j =>
      if dtSq img c (i, j) < st.minD i j ∧ dtSq img c (i, j) ≤ (q : WithTop ℚ) then
        dtSq img c (i, j)
      else st.minD i j
    closest := fun i j =>
      if dtSq img c (i, j) < st.minD i j ∧ dtSq img c (i, j) ≤ (q : WithTop ℚ) then c
      else st.closest i j }

/-- The state after the whole `for color_value in unique_colors` loop. -/
def gapRun (img : Image) (q : ℚ) : GapState :=
  (unique_colors img).foldl (gapStep img q) gapInit

/-- `fill_2d_image_gaps` (source lines 78-112), as a pure function on the
in-memory image: `filled_image = image.copy()`;
`fill_condition = (image == 0) & (min_distances <= max_distance)`;
`filled_image[fill_condition] = closest_values[fill_condition]`.
`q` is the squared `max_distance`. -/
def fill_2d_image_gaps (img : Image) (q : ℚ) : Image :=
  { h := img.h
    w := img.w
    pix := fun i j =>
      if img.pix i j = 0 ∧ (gapRun img q).minD i j ≤ (q : WithTop ℚ) then
        (gapRun img q).closest i j
      else img.pix i j }

/-! ### Analysis of the per-color fold -/

/-- The distance-transform value of color `c` at `p`, restricted by the bound
`dt <= max_distance`: the value when it passes the bound, `⊤` otherwise. -/
def restrictedDt (img : Image) (q : ℚ) (c : ℕ) (p : ℕ × ℕ) : WithTop ℚ :=
  if dtSq img c p ≤ (q : WithTop ℚ) then dtSq img c p else ⊤

/-- The least restricted distance-transform value over a list of colors. -/
def bestD (img : Image) (q : ℚ) : List ℕ → ℕ × ℕ → WithTop ℚ
  | [], _ => ⊤
  | c :: L, p => min (restrictedDt img q c p) (bestD img q L p)

/-- The first color of `L` whose distance-transform value at `p` attains
`bestD`, or 0 when there is none. -/
def firstMin (img : Image) (q : ℚ) (L : List ℕ) (p : ℕ × ℕ) : ℕ :=
  (L.find? (fun c => decide (dtSq img c p = bestD img q L p))).getD 0

lemma restrictedDt_ne_top {img : Image} {q : ℚ} {c : ℕ} {p : ℕ × ℕ}
    (h : restrictedDt img q c p ≠ ⊤) :
    restrictedDt img q c p = dtSq img c p ∧ dtSq img c p ≤ (q : WithTop ℚ) := by
  unfold restrictedDt at h ⊢
  split at h
  · exact ⟨by simp [*], by assumption⟩
  · exact absurd rfl h

lemma bestD_le_coe {img : Image} {q : ℚ} {L : List ℕ} {p : ℕ × ℕ}
    (h : bestD img q L p ≠ ⊤) : bestD img q L p ≤ (q : WithTop ℚ) := by
  induction L with
  | nil => exact absurd rfl h
  | cons c L ih =>
    rcases min_cases (restrictedDt img q c p) (bestD img q L p) with ⟨he, _⟩ | ⟨he, _⟩ <;>
      rw [bestD] at h ⊢ <;> rw [he] at h ⊢
    · rw [(restrictedDt_ne_top h).1]
      exact (restrictedDt_ne_top h).2
    · exact ih h

lemma bestD_exists {img : Image} {q : ℚ} {L : List ℕ} {p : ℕ × ℕ}
    (h : bestD img q L p ≠ ⊤) : ∃ c ∈ L, dtSq img c p = bestD img q L p := by
  induction L with
  | nil => exact absurd rfl h
  | cons c L ih =>
    rcases min_cases (restrictedDt img q c p) (bestD img q L p) with ⟨he, _⟩ | ⟨he, _⟩ <;>
      rw [bestD] at h ⊢ <;> rw [he] at h ⊢
    · exact ⟨c, List.mem_cons_self c L, (restrictedDt_ne_top h).1.symm⟩
    · obtain ⟨c', hc', hd⟩ := ih h
      exact ⟨c', List.mem_cons_of_mem c hc', hd⟩

lemma gapStep_minD (img : Image) (q : ℚ) (st : GapState) (c : ℕ) (i j : ℕ) :
    (gapStep img q st c).minD i j = min (st.minD i j) (restrictedDt img q c (i, j)) := by
  unfold gapStep restrictedDt
  by_cases hq : dtSq img c (i, j) ≤ (q : WithTop ℚ)
  · simp only [hq, and_true, if_true]
    by_cases hlt : dtSq img c (i, j) < st.minD i j
    · rw [if_pos hlt, min_eq_right hlt.le]
    · rw [if_neg hlt, min_eq_left (not_lt.mp hlt)]
  · simp only [hq, and_false, if_false]
    rw [min_eq_left le_top]

lemma gapStep_closest (img : Image) (q : ℚ) (st : GapState) (c : ℕ) (i j : ℕ) :
    (gapStep img q st c).closest i j =
      if restrictedDt img q c (i, j) < st.minD i j then c else st.closest i j := by
  unfold gapStep restrictedDt
  by_cases hq : dtSq img c (i, j) ≤ (q : WithTop ℚ)
  · simp only [hq, and_true, if_true]
  · simp only [hq, and_false, if_false, not_top_lt, if_neg not_top_lt]

lemma gapFoldl_minD (img : Image) (q : ℚ) (L : List ℕ) (st : GapState) (i j : ℕ) :
    ((L.foldl (gapStep img q) st).minD i j) = min (st.minD i j) (bestD img q L (i, j)) := by
  induction L generalizing st with
  | nil => exact (min_eq_left le_top).symm
  | cons c L ih =>
    rw [List.foldl_cons, ih, gapStep_minD, bestD, min_assoc]

lemma firstMin_cons_of_ne {img : Image} {q : ℚ} {c : ℕ} {L : List ℕ} {p : ℕ × ℕ}
    (hb : bestD img q (c :: L) p = bestD img q L p)
    (hc : dtSq img c p ≠ bestD img q L p) :
    firstMin img q (c :: L) p = firstMin img q L p := by
  unfold firstMin
  rw [hb, List.find?_cons_of_neg _ (by simp [hc])]

lemma firstMin_cons_self {img : Image} {q : ℚ} {c : ℕ} {L : List ℕ} {p : ℕ × ℕ}
    (hc : dtSq img c p = bestD img q (c :: L) p) :
    firstMin img q (c :: L) p = c := by
  unfold firstMin
  rw [List.find?_cons_of_pos _ (by simp [hc])]
  rfl

lemma gapFoldl_closest (img : Image) (q : ℚ) (L : List ℕ) (st : GapState) (i j : ℕ) :
    ((L.foldl (gapStep img q) st).closest i j) =
      if bestD img q L (i, j) < st.minD i j then firstMin img q L (i, j)
      else st.closest i j := by
  induction L generalizing st with
  | nil => simp [bestD, not_top_lt]
  | cons c L ih =>
    rw [List.foldl_cons, ih, gapStep_minD, gapStep_closest]
    by_cases h1 : bestD img q L (i, j) < min (st.minD i j) (restrictedDt img q c (i, j))
    · have hba : bestD img q L (i, j) < restrictedDt img q c (i, j) :=
        lt_of_lt_of_le h1 (min_le_right _ _)
      have hbm : bestD img q L (i, j) < st.minD i j := lt_of_lt_of_le h1 (min_le_left _ _)
      have hmin : bestD img q (c :: L) (i, j) = bestD img q L (i, j) := by
        rw [bestD]; exact min_eq_right hba.le
      rw [if_pos h1, if_pos (by rw [hmin]; exact hbm), firstMin_cons_of_ne hmin]
      intro hdc
      have hble : bestD img q L (i, j) ≤ (q : WithTop ℚ) := bestD_le_coe (ne_top_of_lt hbm)
      have hrd : restrictedDt img q c (i, j) = dtSq img c (i, j) := by
        unfold restrictedDt; rw [if_pos (by rw [hdc]; exact hble)]
      rw [hrd, hdc] at hba
      exact lt_irrefl _ hba
    · rw [if_neg h1]
      have h1' : min (st.minD i j) (restrictedDt img q c (i, j)) ≤ bestD img q L (i, j) :=
        not_lt.mp h1
      by_cases h2 : restrictedDt img q c (i, j) < st.minD i j
      · rw [if_pos h2]
        have hab : restrictedDt img q c (i, j) ≤ bestD img q L (i, j) := by
          rwa [min_eq_right h2.le] at h1'
        have hminc : bestD img q (c :: L) (i, j) = restrictedDt img q c (i, j) := by
          rw [bestD]; exact min_eq_left hab
        rw [if_pos (by rw [hminc]; exact h2)]
        have hane : restrictedDt img q c (i, j) ≠ ⊤ := ne_top_of_lt h2
        exact (firstMin_cons_self (by rw [hminc, (restrictedDt_ne_top hane).1])).symm
      · rw [if_neg h2]
        have h2' : st.minD i j ≤ restrictedDt img q c (i, j) := not_lt.mp h2
        have hmb : st.minD i j ≤ bestD img q L (i, j) := by
          rwa [min_eq_left h2'] at h1'
        rw [if_neg (by rw [bestD]; exact not_lt.mpr (le_min h2' hmb))]

/-- The running-minimum buffer after the loop is the least restricted
distance-transform value over all nonzero colors. -/
lemma gapRun_minD (img : Image) (q : ℚ) (i j : ℕ) :
    (gapRun img q).minD i j = bestD img q (unique_colors img) (i, j) := by
  unfold gapRun
  rw [gapFoldl_minD]
  exact min_eq_right le_top

/-- The closest-value buffer after the loop holds the first color of the
iteration order attaining the least restricted distance. -/
lemma gapRun_closest (img : Image) (q : ℚ) (i j : ℕ) :
    (gapRun img q).closest i j =
      if bestD img q (unique_colors img) (i, j) < ⊤ then
        firstMin img q (unique_colors img) (i, j)
      else 0 := by
  unfold gapRun
  rw [gapFoldl_closest]
  rfl

/-- Pointwise description of `fill_2d_image_gaps`. -/
lemma fill_pix (img : Image) (q : ℚ) (i j : ℕ) :
    (fill_2d_image_gaps img q).pix i j =
      if img.pix i j = 0 ∧ bestD img q (unique_colors img) (i, j) ≤ (q : WithTop ℚ) then
        firstMin img q (unique_colors img) (i, j)
      else img.pix i j := by
  unfold fill_2d_image_gaps
  simp only [gapRun_minD, gapRun_closest]
  by_cases h : img.pix i j = 0 ∧ bestD img q (unique_colors img) (i, j) ≤ (q : WithTop ℚ)
  · rw [if_pos h, if_pos h, if_pos (lt_of_le_of_lt h.2 (WithTop.coe_lt_top q))]
  · rw [if_neg h, if_neg h]

lemma mem_pixelList {img : Image} {p : ℕ × ℕ} :
    p ∈ pixelList img ↔ p.1 < img.h ∧ p.2 < img.w := by
  obtain ⟨a, b⟩ := p
  unfold pixelList
  simp only [List.mem_flatMap, List.mem_map, List.mem_range, Prod.mk.injEq]
  constructor
  · rintro ⟨i, hi, j, hj, rfl, rfl⟩
    exact ⟨hi, hj⟩
  · rintro ⟨ha, hb⟩
    exact ⟨a, ha, b, hb, rfl, rfl⟩

lemma mem_maskPixels {img : Image} {c : ℕ} {r : ℕ × ℕ} :
    r ∈ maskPixels img c ↔ (r.1 < img.h ∧ r.2 < img.w) ∧ img.pix r.1 r.2 = c := by
  unfold maskPixels
  rw [List.mem_filter, mem_pixelList]
  simp

lemma mem_unique_colors {img : Image} {c : ℕ} :
    c ∈ unique_colors img ↔
      c ≠ 0 ∧ ∃ p : ℕ × ℕ, (p.1 < img.h ∧ p.2 < img.w) ∧ img.pix p.1 p.2 = c := by
  unfold unique_colors
  rw [(List.perm_insertionSort _ _).mem_iff, List.mem_filter, List.mem_dedup, List.mem_map]
  simp only [bne_iff_ne, ne_eq, mem_pixelList]
  constructor
  · rintro ⟨⟨p, hp, rfl⟩, hz⟩
    exact ⟨hz, p, hp, rfl⟩
  · rintro ⟨hz, p, hp, rfl⟩
    exact ⟨⟨p, hp, rfl⟩, hz⟩

lemma unique_colors_sorted (img : Image) : List.Sorted (· ≤ ·) (unique_colors img) :=
  List.sorted_insertionSort _ _

lemma unique_colors_nodup (img : Image) : (unique_colors img).Nodup :=
  ((List.perm_insertionSort _ _).nodup_iff).mpr ((List.nodup_dedup _).filter _)

lemma foldr_min_le_iff {l : List (WithTop ℚ)} {q : ℚ} :
    l.foldr min ⊤ ≤ (q : WithTop ℚ) ↔ ∃ x ∈ l, x ≤ (q : WithTop ℚ) := by
  induction l with
  | nil => simp [top_le_iff]
  | cons x l ih =>
    simp only [List.foldr_cons, min_le_iff, ih, List.mem_cons]
    constructor
    · rintro (hx | ⟨y, hy, hyl⟩)
      · exact ⟨x, Or.inl rfl, hx⟩
      · exact ⟨y, Or.inr hy, hyl⟩
    · rintro ⟨y, (rfl | hy), hyl⟩
      · exact Or.inl hyl
      · exact Or.inr ⟨y, hy, hyl⟩

lemma dtSq_le_iff {img : Image} {c : ℕ} {p : ℕ × ℕ} {q : ℚ} :
    dtSq img c p ≤ (q : WithTop ℚ) ↔
      ∃ r ∈ maskPixels img c, (distSq p r : ℚ) ≤ q := by
  unfold dtSq
  rw [foldr_min_le_iff]
  constructor
  · rintro ⟨x, hx, hxq⟩
    obtain ⟨r, hr, rfl⟩ := List.mem_map.mp hx
    exact ⟨r, hr, WithTop.coe_le_coe.mp hxq⟩
  · rintro ⟨r, hr, hrq⟩
    exact ⟨((distSq p r : ℚ) : WithTop ℚ), List.mem_map.mpr ⟨r, hr, rfl⟩,
      WithTop.coe_le_coe.mpr hrq⟩

lemma firstMin_spec {img : Image} {q : ℚ} {L : List ℕ} {p : ℕ × ℕ}
    (h : bestD img q L p ≠ ⊤) :
    firstMin img q L p ∈ L ∧ dtSq img (firstMin img q L p) p = bestD img q L p ∧
      L.find? (fun c => decide (dtSq img c p = bestD img q L p)) = some (firstMin img q L p) := by
  obtain ⟨c, hc, hd⟩ := bestD_exists h
  have hsome : (L.find? (fun c => decide (dtSq img c p = bestD img q L p))).isSome := by
    rw [List.find?_isSome]
    exact ⟨c, hc, by simp [hd]⟩
  obtain ⟨c', hc'⟩ := Option.isSome_iff_exists.mp hsome
  have hfm : firstMin img q L p = c' := by
    unfold firstMin
    rw [hc']
    rfl
  rw [hfm]
  exact ⟨List.mem_of_find?_eq_some hc', by simpa using List.find?_some hc', hc'⟩

lemma find?_append_of_none {P : ℕ → Bool} {l1 l2 : List ℕ}
    (h : ∀ x ∈ l1, ¬ P x) : (l1 ++ l2).find? P = l2.find? P := by
  induction l1 with
  | nil => rfl
  | cons a l1 ih =>
    rw [List.cons_append, List.find?_cons_of_neg _ (h a (List.mem_cons_self a l1))]
    exact ih (fun x hx => h x (List.mem_cons_of_mem a hx))

lemma find?_min_of_sorted {P : ℕ → Bool} {c : ℕ} :
    ∀ {L : List ℕ}, List.Sorted (· ≤ ·) L → L.find? P = some c → ∀ c' ∈ L, P c' → c ≤ c'
  | [], _, hf => by simp at hf
  | a :: L, hs, hf => by
    intro c' hc' hP
    by_cases ha : P a
    · rw [List.find?_cons_of_pos _ ha] at hf
      obtain rfl : a = c := by simpa using hf
      rcases List.mem_cons.mp hc' with rfl | h
      · exact le_refl _
      · exact (List.sorted_cons.mp hs).1 c' h
    · rw [List.find?_cons_of_neg _ ha] at hf
      rcases List.mem_cons.mp hc' with rfl | h
      · exact absurd hP ha
      · exact find?_min_of_sorted (List.sorted_cons.mp hs).2 hf c' h hP

lemma unique_colors_sorted_lt (img : Image) : List.Sorted (· < ·) (unique_colors img) :=
  (unique_colors_sorted img).lt_of_le (unique_colors_nodup img)

/-! ### Concrete slices used in scenarios and counterexamples -/

/-- The 5×5 slice of the spec scenario: label 10 on column 0, label 20 on
column 4, background elsewhere. -/
def img5 : Image := ⟨5, 5, fun _ j => if j = 0 then 10 else if j = 4 then 20 else 0⟩

/-- A 1×4 slice with label 5 at the single pixel (0,0). -/
def img1 : Image := ⟨1, 4, fun i j => if i = 0 ∧ j = 0 then 5 else 0⟩

/-! ### Claims about the GapFiller -/

/-- C1: for every 2D labeled slice and every max_distance, every pixel that is
non-zero in the input of `fill_2d_image_gaps` keeps exactly the same value in
the output: only input-zero pixels are ever overwritten (`q` is the squared
max_distance). -/
theorem C1_fill_never_alters_labeled_pixels (img : Image) (q : ℚ) (i j : ℕ)
    (hi : i < img.h) (hj : j < img.w) (hnz : img.pix i j ≠ 0) :
    (fill_2d_image_gaps img q).pix i j = img.pix i j := by
  rw [fill_pix, if_neg (fun hc => hnz hc.1)]

/-- Witness for C1 at the 5×5 scenario slice. -/
theorem C1_witness :
    (0 : ℕ) < img5.h ∧ (0 : ℕ) < img5.w ∧ img5.pix 0 0 ≠ 0 ∧
      (fill_2d_image_gaps img5 4).pix 0 0 = img5.pix 0 0 :=
  ⟨by decide, by decide, by decide,
    C1_fill_never_alters_labeled_pixels img5 4 0 0 (by decide) (by decide) (by decide)⟩

/-- C2: a background pixel that `fill_2d_image_gaps` assigns a non-zero label
lies at squared Euclidean distance at most `q` (the squared max_distance,
inclusive) from some pixel of that label's original mask; and a background
pixel whose squared distance to every non-zero pixel exceeds `q` remains 0. -/
theorem C2_fill_distance_bound (img : Image) (q : ℚ) (i j : ℕ)
    (hi : i < img.h) (hj : j < img.w) (hbg : img.pix i j = 0) :
    ((fill_2d_image_gaps img q).pix i j ≠ 0 →
      ∃ r ∈ maskPixels img ((fill_2d_image_gaps img q).pix i j),
        (distSq (i, j) r : ℚ) ≤ q) ∧
    ((∀ r : ℕ × ℕ, r.1 < img.h → r.2 < img.w → img.pix r.1 r.2 ≠ 0 →
        ¬ ((distSq (i, j) r : ℚ) ≤ q)) →
      (fill_2d_image_gaps img q).pix i j = 0) := by
  constructor
  · intro hnz
    rw [fill_pix] at hnz ⊢
    by_cases hc : img.pix i j = 0 ∧
        bestD img q (unique_colors img) (i, j) ≤ (q : WithTop ℚ)
    · rw [if_pos hc] at hnz ⊢
      have hne : bestD img q (unique_colors img) (i, j) ≠ ⊤ :=
        ne_top_of_le_ne_top (WithTop.coe_ne_top) hc.2
      obtain ⟨-, hach, -⟩ := firstMin_spec hne
      have : dtSq img (firstMin img q (unique_colors img) (i, j)) (i, j) ≤ (q : WithTop ℚ) := by
        rw [hach]; exact hc.2
      exact dtSq_le_iff.mp this
    · rw [if_neg hc] at hnz
      exact absurd hbg hnz
  · intro hfar
    rw [fill_pix]
    rw [if_neg ?_]
    · exact hbg
    · rintro ⟨-, hble⟩
      have hne : bestD img q (unique_colors img) (i, j) ≠ ⊤ :=
        ne_top_of_le_ne_top (WithTop.coe_ne_top) hble
      obtain ⟨c, hcmem, hach⟩ := bestD_exists hne
      have hdle : dtSq img c (i, j) ≤ (q : WithTop ℚ) := by rw [hach]; exact hble
      obtain ⟨r, hr, hrq⟩ := dtSq_le_iff.mp hdle
      obtain ⟨⟨hr1, hr2⟩, hrc⟩ := mem_maskPixels.mp hr
      have hc0 : c ≠ 0 := (mem_unique_colors.mp hcmem).1
      exact hfar r hr1 hr2 (by rw [hrc]; exact hc0) hrq

/-- Witness for C2 at the 5×5 scenario slice, pixel (0,2). -/
theorem C2_witness :
    (0 : ℕ) < img5.h ∧ (2 : ℕ) < img5.w ∧ img5.pix 0 2 = 0 ∧
      ((fill_2d_image_gaps img5 4).pix 0 2 ≠ 0 →
        ∃ r ∈ maskPixels img5 ((fill_2d_image_gaps img5 4).pix 0 2),
          (distSq (0, 2) r : ℚ) ≤ 4) :=
  ⟨by decide, by decide, by decide, (C2_fill_distance_bound img5 4 0 2 (by decide)
    (by decide) (by decide)).1⟩

/-- C3: the running-minimum update uses a strict less-than comparison, so on a
tie the first color processed in iteration order wins and a later color with
an exactly equal distance-transform value never overwrites the stored closest
label; and on the 5×5 slice with label 10 on column 0, label 20 on column 4
and max_distance 2 (squared bound 4), the iteration order is [10, 20], column
1 becomes 10, column 3 becomes 20, and the tied column 2 becomes 10, the first
color processed. -/
theorem C3_tie_break_first_color_wins :
    (∀ (img : Image) (q : ℚ) (i j c : ℕ) (l1 l2 : List ℕ),
      unique_colors img = l1 ++ c :: l2 →
      img.pix i j = 0 →
      bestD img q (unique_colors img) (i, j) ≤ (q : WithTop ℚ) →
      dtSq img c (i, j) = bestD img q (unique_colors img) (i, j) →
      (∀ c' ∈ l1, dtSq img c' (i, j) ≠ bestD img q (unique_colors img) (i, j)) →
      (fill_2d_image_gaps img q).pix i j = c) ∧
    unique_colors img5 = [10, 20] ∧
    (∀ i < 5, (fill_2d_image_gaps img5 4).pix i 1 = 10 ∧
      (fill_2d_image_gaps img5 4).pix i 2 = 10 ∧
      (fill_2d_image_gaps img5 4).pix i 3 = 20) := by
  refine ⟨?_, by decide, by decide⟩
  intro img q i j c l1 l2 hL hbg hble hach hfirst
  rw [fill_pix, if_pos ⟨hbg, hble⟩]
  unfold firstMin
  rw [hL, find?_append_of_none ?later, List.find?_cons_of_pos _ (by simp [hL ▸ hach])]
  · rfl
  case later =>
    intro x hx
    simp only [decide_eq_true_eq]
    intro hxe
    exact hfirst x hx (by rw [hL]; exact hxe)

/-- Witness for C3 at the 5×5 scenario slice, tied pixel (2,2). -/
theorem C3_witness :
    unique_colors img5 = [] ++ 10 :: [20] ∧ img5.pix 2 2 = 0 ∧
      bestD img5 4 (unique_colors img5) (2, 2) ≤ ((4 : ℚ) : WithTop ℚ) ∧
      dtSq img5 10 (2, 2) = bestD img5 4 (unique_colors img5) (2, 2) ∧
      (fill_2d_image_gaps img5 4).pix 2 2 = 10 :=
  ⟨by decide, by decide, by decide, by decide,
    C3_tie_break_first_color_wins.1 img5 4 2 2 10 [] [20] (by decide) (by decide)
      (by decide) (by decide) (by simp)⟩

/-- C9: the gap filling is deterministic with a concretely fixed tie-break:
the colors are processed in strictly ascending numeric order (the sorted order
of `np.unique`), so a background pixel within the bound is assigned a color
attaining the minimal distance, and on a tie the numerically smallest tied
label. -/
theorem C9_ascending_order_smallest_tied_label :
    (∀ img : Image, List.Sorted (· < ·) (unique_colors img)) ∧
    (∀ (img : Image) (q : ℚ) (i j : ℕ),
      img.pix i j = 0 →
      bestD img q (unique_colors img) (i, j) ≤ (q : WithTop ℚ) →
      (fill_2d_image_gaps img q).pix i j ∈ unique_colors img ∧
      dtSq img ((fill_2d_image_gaps img q).pix i j) (i, j) =
        bestD img q (unique_colors img) (i, j) ∧
      (∀ c ∈ unique_colors img,
        dtSq img c (i, j) = bestD img q (unique_colors img) (i, j) →
        (fill_2d_image_gaps img q).pix i j ≤ c)) := by
  refine ⟨unique_colors_sorted_lt, ?_⟩
  intro img q i j hbg hble
  have hne : bestD img q (unique_colors img) (i, j) ≠ ⊤ :=
    ne_top_of_le_ne_top (WithTop.coe_ne_top) hble
  obtain ⟨hmem, hach, hfind⟩ := firstMin_spec hne
  rw [fill_pix, if_pos ⟨hbg, hble⟩]
  refine ⟨hmem, hach, ?_⟩
  intro c hc hdc
  exact find?_min_of_sorted (unique_colors_sorted img) hfind c hc (by simp [hdc])

/-- Witness for C9 at the 5×5 scenario slice, tied pixel (2,2). -/
theorem C9_witness :
    img5.pix 2 2 = 0 ∧
      bestD img5 4 (unique_colors img5) (2, 2) ≤ ((4 : ℚ) : WithTop ℚ) ∧
      (fill_2d_image_gaps img5 4).pix 2 2 ∈ unique_colors img5 :=
  ⟨by decide, by decide,
    (C9_ascending_order_smallest_tied_label.2 img5 4 2 2 (by decide) (by decide)).1⟩

/-- C5 counterexample: `fill_2d_image_gaps` is not idempotent.  On the 1×4
slice `[5, 0, 0, 0]` with max_distance 1 (squared bound 1), one application
yields `[5, 5, 0, 0]` and a second application yields `[5, 5, 5, 0]`: the
pixel (0,2), beyond the bound from the original region, is filled on the
second run because it is within the bound of a newly filled pixel. -/
theorem C5_counterexample :
    fill_2d_image_gaps (fill_2d_image_gaps img1 1) 1 ≠ fill_2d_image_gaps img1 1 := by
  intro h
  have h2 : (fill_2d_image_gaps (fill_2d_image_gaps img1 1) 1).pix 0 2 =
      (fill_2d_image_gaps img1 1).pix 0 2 := by rw [h]
  have : (5 : ℕ) = 0 := by
    calc (5 : ℕ) = (fill_2d_image_gaps (fill_2d_image_gaps img1 1) 1).pix 0 2 := by decide
    _ = (fill_2d_image_gaps img1 1).pix 0 2 := h2
    _ = 0 := by decide
  exact absurd this (by decide)

/-- C5 amended: re-running `fill_2d_image_gaps` on its own output with the
same max_distance never changes any pixel that is non-zero in that output
(labels once assigned are stable), but it can fill additional background
pixels lying within the bound of newly filled pixels, so the output is not a
fixed point in general. -/
theorem C5_refill_preserves_filled_labels (img : Image) (q : ℚ) (i j : ℕ)
    (h : (fill_2d_image_gaps img q).pix i j ≠ 0) :
    (fill_2d_image_gaps (fill_2d_image_gaps img q) q).pix i j =
      (fill_2d_image_gaps img q).pix i j := by
  rw [fill_pix, if_neg (fun hc => h hc.1)]

/-- Witness for the amended C5 on the 1×4 slice at the filled pixel (0,1). -/
theorem C5_witness :
    (fill_2d_image_gaps img1 1).pix 0 1 ≠ 0 ∧
      (fill_2d_image_gaps (fill_2d_image_gaps img1 1) 1).pix 0 1 =
        (fill_2d_image_gaps img1 1).pix 0 1 :=
  ⟨by decide, C5_refill_preserves_filled_labels img1 1 0 1 (by decide)⟩

/-! ## ViewReorienter: `utils/views_converter_utils.py`

A 3D labeled volume (a numpy `uint8` array) with numpy axes 0, 1, 2.
`np.flip(m, ax)` reverses an axis, which on `Fin`-indexed data is `Fin.rev`;
`np.rot90(m, k, axes)` for a quarter-turn multiple `k` is, per the numpy
source, a composition of an axis transposition and one axis reversal.  All
index arithmetic is exact, so every operation below is a pure reindexing. -/

/-- A 3D labeled volume: the three numpy axis lengths and the voxel data. -/
structure Volume where
  d0 : ℕ
  d1 : ℕ
  d2 : ℕ
  data : Fin d0 → Fin d1 → Fin d2 → ℕ

/-- `np.rot90(m, k=1, axes=(0, 1))`: `transpose(flip(m, 1), (1, 0, 2))`. -/
def rot90_01_k1 (V : Volume) : Volume :=
  ⟨V.d1, V.d0, V.d2, fun i j k => V.data j i.rev k⟩

/-- `np.rot90(m, k=3, axes=(0, 1))`: `flip(transpose(m, (1, 0, 2)), 1)`. -/
def rot90_01_k3 (V : Volume) : Volume :=
  ⟨V.d1, V.d0, V.d2, fun i j k => V.data j.rev i k⟩

/-- `np.rot90(m, k=3, axes=(0, 2))`: `flip(transpose(m, (2, 1, 0)), 2)`. -/
def rot90_02_k3 (V : Volume) : Volume :=
  ⟨V.d2, V.d1, V.d0, fun i j k => V.data k.rev j i⟩

/-- `np.flip(m, axis=2)`. -/
def flip_axis2 (V : Volume) : Volume :=
  ⟨V.d0, V.d1, V.d2, fun i j k => V.data i j k.rev⟩

/-- `transpose_tif` (source lines 5-16): transposes every Z-slice, i.e. swaps
axes 1 and 2 (the `astype` call does not change the 8-bit values). -/
def transpose_tif (V : Volume) : Volume :=
  ⟨V.d0, V.d2, V.d1, fun i j k => V.data i k j⟩

/-- `convert_dorsal_tif_to_coronal_tif` (line 21):
`np.rot90(data, k=3, axes=(0, 1))`. -/
def convert_dorsal_tif_to_coronal_tif (V : Volume) : Volume := rot90_01_k3 V

/-- `convert_dorsal_tif_to_sagittal_tif` (lines 28-29):
`np.rot90(data, k=3, axes=(0, 2))` then `transpose_tif`. -/
def convert_dorsal_tif_to_sagittal_tif (V : Volume) : Volume :=
  transpose_tif (rot90_02_k3 V)

/-- `convert_sagittal_tif_to_coronal_tif` (lines 34-35):
`np.rot90(data, k=3, axes=(0, 2))` then `np.flip(-, axis=2)`. -/
def convert_sagittal_tif_to_coronal_tif (V : Volume) : Volume :=
  flip_axis2 (rot90_02_k3 V)

/-- `convert_sagittal_tif_to_dorsal_tif` (lines 42-43):
`np.rot90(data, k=1, axes=(0, 1))` then `transpose_tif`. -/
def convert_sagittal_tif_to_dorsal_tif (V : Volume) : Volume :=
  transpose_tif (rot90_01_k1 V)

/-- `convert_coronal_tif_to_dorsal_tif` (line 49):
`np.rot90(data, k=-3, axes=(0, 1))`; numpy reduces `k` modulo 4, and
`-3 % 4 = 1`, so this is the `k=1` quarter turn. -/
def convert_coronal_tif_to_dorsal_tif (V : Volume) : Volume := rot90_01_k1 V

/-- `convert_coronal_tif_to_sagittal_tif` (lines 56-58):
`np.rot90(data, k=3, axes=(0, 2))` then `np.flip(-, axis=2)`. -/
def convert_coronal_tif_to_sagittal_tif (V : Volume) : Volume :=
  flip_axis2 (rot90_02_k3 V)

/-- The multiset of all voxel values of a volume. -/
def volumeValues (V : Volume) : Multiset ℕ :=
  Multiset.map (fun p : Fin V.d0 × Fin V.d1 × Fin V.d2 => V.data p.1 p.2.1 p.2.2)
    (Finset.univ.val)

lemma values_reindex {α β : Type} [Fintype α] [Fintype β] (e : α ≃ β) (f : β → ℕ) :
    Multiset.map (fun x => f (e x)) Finset.univ.val = Multiset.map f Finset.univ.val := by
  conv_rhs => rw [← Multiset.map_univ_val_equiv e]
  rw [Multiset.map_map]
  rfl

lemma roundtrip_dorsal_coronal (V : Volume) :
    convert_coronal_tif_to_dorsal_tif (convert_dorsal_tif_to_coronal_tif V) = V := by
  obtain ⟨n0, n1, n2, f⟩ := V
  simp only [convert_dorsal_tif_to_coronal_tif, convert_coronal_tif_to_dorsal_tif,
    rot90_01_k1, rot90_01_k3, Fin.rev_rev]

lemma roundtrip_coronal_dorsal (V : Volume) :
    convert_dorsal_tif_to_coronal_tif (convert_coronal_tif_to_dorsal_tif V) = V := by
  obtain ⟨n0, n1, n2, f⟩ := V
  simp only [convert_dorsal_tif_to_coronal_tif, convert_coronal_tif_to_dorsal_tif,
    rot90_01_k1, rot90_01_k3, Fin.rev_rev]

lemma roundtrip_dorsal_sagittal (V : Volume) :
    convert_sagittal_tif_to_dorsal_tif (convert_dorsal_tif_to_sagittal_tif V) = V := by
  obtain ⟨n0, n1, n2, f⟩ := V
  simp only [convert_dorsal_tif_to_sagittal_tif, convert_sagittal_tif_to_dorsal_tif,
    rot90_02_k3, rot90_01_k1, transpose_tif, Fin.rev_rev]

lemma roundtrip_sagittal_dorsal (V : Volume) :
    convert_dorsal_tif_to_sagittal_tif (convert_sagittal_tif_to_dorsal_tif V) = V := by
  obtain ⟨n0, n1, n2, f⟩ := V
  simp only [convert_dorsal_tif_to_sagittal_tif, convert_sagittal_tif_to_dorsal_tif,
    rot90_02_k3, rot90_01_k1, transpose_tif, Fin.rev_rev]

lemma roundtrip_sagittal_coronal (V : Volume) :
    convert_coronal_tif_to_sagittal_tif (convert_sagittal_tif_to_coronal_tif V) = V := by
  obtain ⟨n0, n1, n2, f⟩ := V
  simp only [convert_sagittal_tif_to_coronal_tif, convert_coronal_tif_to_sagittal_tif,
    rot90_02_k3, flip_axis2, Fin.rev_rev]

lemma roundtrip_coronal_sagittal (V : Volume) :
    convert_sagittal_tif_to_coronal_tif (convert_coronal_tif_to_sagittal_tif V) = V := by
  obtain ⟨n0, n1, n2, f⟩ := V
  simp only [convert_sagittal_tif_to_coronal_tif, convert_coronal_tif_to_sagittal_tif,
    rot90_02_k3, flip_axis2, Fin.rev_rev]

lemma volumeValues_dorsal_to_coronal (V : Volume) :
    volumeValues (convert_dorsal_tif_to_coronal_tif V) = volumeValues V := by
  obtain ⟨n0, n1, n2, f⟩ := V
  exact values_reindex
    ⟨fun p => (p.2.1.rev, p.1, p.2.2), fun p => (p.2.1, p.1.rev, p.2.2),
     fun p => by obtain ⟨a, b, c⟩ := p; simp,
     fun p => by obtain ⟨a, b, c⟩ := p; simp⟩
    (fun p => f p.1 p.2.1 p.2.2)

lemma volumeValues_coronal_to_dorsal (V : Volume) :
    volumeValues (convert_coronal_tif_to_dorsal_tif V) = volumeValues V := by
  obtain ⟨n0, n1, n2, f⟩ := V
  exact values_reindex
    ⟨fun p => (p.2.1, p.1.rev, p.2.2), fun p => (p.2.1.rev, p.1, p.2.2),
     fun p => by obtain ⟨a, b, c⟩ := p; simp,
     fun p => by obtain ⟨a, b, c⟩ := p; simp⟩
    (fun p => f p.1 p.2.1 p.2.2)

lemma volumeValues_dorsal_to_sagittal (V : Volume) :
    volumeValues (convert_dorsal_tif_to_sagittal_tif V) = volumeValues V := by
  obtain ⟨n0, n1, n2, f⟩ := V
  exact values_reindex
    ⟨fun p => (p.2.1.rev, p.2.2, p.1), fun p => (p.2.2, p.1.rev, p.2.1),
     fun p => by obtain ⟨a, b, c⟩ := p; simp,
     fun p => by obtain ⟨a, b, c⟩ := p; simp⟩
    (fun p => f p.1 p.2.1 p.2.2)

lemma volumeValues_sagittal_to_dorsal (V : Volume) :
    volumeValues (convert_sagittal_tif_to_dorsal_tif V) = volumeValues V := by
  obtain ⟨n0, n1, n2, f⟩ := V
  exact values_reindex
    ⟨fun p => (p.2.2, p.1.rev, p.2.1), fun p => (p.2.1.rev, p.2.2, p.1),
     fun p => by obtain ⟨a, b, c⟩ := p; simp,
     fun p => by obtain ⟨a, b, c⟩ := p; simp⟩
    (fun p => f p.1 p.2.1 p.2.2)

lemma volumeValues_sagittal_to_coronal (V : Volume) :
    volumeValues (convert_sagittal_tif_to_coronal_tif V) = volumeValues V := by
  obtain ⟨n0, n1, n2, f⟩ := V
  exact values_reindex
    ⟨fun p => (p.2.2.rev.rev, p.2.1, p.1), fun p => (p.2.2, p.2.1, p.1.rev.rev),
     fun p => by obtain ⟨a, b, c⟩ := p; simp,
     fun p => by obtain ⟨a, b, c⟩ := p; simp⟩
    (fun p => f p.1 p.2.1 p.2.2)

lemma volumeValues_coronal_to_sagittal (V : Volume) :
    volumeValues (convert_coronal_tif_to_sagittal_tif V) = volumeValues V :=
  volumeValues_sagittal_to_coronal V

/-- C4: for every 3D labeled volume and every supported view pair (A, B),
reorienting from A to B and then from B to A yields the original volume, and
the multiset of voxel label values is unchanged by any single reorientation. -/
theorem C4_reorientation_round_trip_and_label_multiset (V : Volume) :
    (convert_coronal_tif_to_dorsal_tif (convert_dorsal_tif_to_coronal_tif V) = V ∧
     convert_sagittal_tif_to_dorsal_tif (convert_dorsal_tif_to_sagittal_tif V) = V ∧
     convert_coronal_tif_to_sagittal_tif (convert_sagittal_tif_to_coronal_tif V) = V ∧
     convert_dorsal_tif_to_sagittal_tif (convert_sagittal_tif_to_dorsal_tif V) = V ∧
     convert_dorsal_tif_to_coronal_tif (convert_coronal_tif_to_dorsal_tif V) = V ∧
     convert_sagittal_tif_to_coronal_tif (convert_coronal_tif_to_sagittal_tif V) = V) ∧
    (volumeValues (convert_dorsal_tif_to_coronal_tif V) = volumeValues V ∧
     volumeValues (convert_dorsal_tif_to_sagittal_tif V) = volumeValues V ∧
     volumeValues (convert_sagittal_tif_to_coronal_tif V) = volumeValues V ∧
     volumeValues (convert_sagittal_tif_to_dorsal_tif V) = volumeValues V ∧
     volumeValues (convert_coronal_tif_to_dorsal_tif V) = volumeValues V ∧
     volumeValues (convert_coronal_tif_to_sagittal_tif V) = volumeValues V) :=
  ⟨⟨roundtrip_dorsal_coronal V, roundtrip_dorsal_sagittal V, roundtrip_sagittal_coronal V,
    roundtrip_sagittal_dorsal V, roundtrip_coronal_dorsal V, roundtrip_coronal_sagittal V⟩,
   volumeValues_dorsal_to_coronal V, volumeValues_dorsal_to_sagittal V,
   volumeValues_sagittal_to_coronal V, volumeValues_sagittal_to_dorsal V,
   volumeValues_coronal_to_dorsal V, volumeValues_coronal_to_sagittal V⟩

/-- C7: for every 3D labeled volume and every supported reorientation (and for
the `transpose_tif` helper), every voxel of the output equals the value of
some voxel of the input — the transforms are pure reindexings with no blending
— and hence no label value occurs in the output that is not present in the
input. -/
theorem C7_exact_reindexing_no_new_labels (V : Volume) :
    ((∀ i j k, ∃ a b c, (transpose_tif V).data i j k = V.data a b c) ∧
     (∀ i j k, ∃ a b c, (convert_dorsal_tif_to_coronal_tif V).data i j k = V.data a b c) ∧
     (∀ i j k, ∃ a b c, (convert_dorsal_tif_to_sagittal_tif V).data i j k = V.data a b c) ∧
     (∀ i j k, ∃ a b c, (convert_sagittal_tif_to_coronal_tif V).data i j k = V.data a b c) ∧
     (∀ i j k, ∃ a b c, (convert_sagittal_tif_to_dorsal_tif V).data i j k = V.data a b c) ∧
     (∀ i j k, ∃ a b c, (convert_coronal_tif_to_dorsal_tif V).data i j k = V.data a b c) ∧
     (∀ i j k, ∃ a b c, (convert_coronal_tif_to_sagittal_tif V).data i j k = V.data a b c)) ∧
    (∀ v : ℕ,
      (v ∈ volumeValues (convert_dorsal_tif_to_coronal_tif V) → v ∈ volumeValues V) ∧
      (v ∈ volumeValues (convert_dorsal_tif_to_sagittal_tif V) → v ∈ volumeValues V) ∧
      (v ∈ volumeValues (convert_sagittal_tif_to_coronal_tif V) → v ∈ volumeValues V) ∧
      (v ∈ volumeValues (convert_sagittal_tif_to_dorsal_tif V) → v ∈ volumeValues V) ∧
      (v ∈ volumeValues (convert_coronal_tif_to_dorsal_tif V) → v ∈ volumeValues V) ∧
      (v ∈ volumeValues (convert_coronal_tif_to_sagittal_tif V) → v ∈ volumeValues V)) := by
  constructor
  · exact ⟨fun i j k => ⟨i, k, j, rfl⟩,
      fun i j k => ⟨j.rev, i, k, rfl⟩,
      fun i j k => ⟨j.rev, k, i, rfl⟩,
      fun i j k => ⟨k.rev.rev, j, i, rfl⟩,
      fun i j k => ⟨k, i.rev, j, rfl⟩,
      fun i j k => ⟨j, i.rev, k, rfl⟩,
      fun i j k => ⟨k.rev.rev, j, i, rfl⟩⟩
  · intro v
    rw [volumeValues_dorsal_to_coronal, volumeValues_dorsal_to_sagittal,
      volumeValues_sagittal_to_coronal, volumeValues_sagittal_to_dorsal,
      volumeValues_coronal_to_dorsal, volumeValues_coronal_to_sagittal]
    exact ⟨id, id, id, id, id, id⟩

/-! ## LabelVolumeAssembler / RegionExtractor: `utils/tiff_utils.py` -/

/-- One zipped `(region_path, color_value)` entry of
`merge_8bit_grayscale_tif_files`: whether `os.path.isfile(region_path)`
holds, the mask voxel data read by `tiff.imread(region_path)`, and the color
value (`none` models Python `None`, for which the write uses 255).  Voxels
are addressed by their 3D index; the merge logic is voxelwise, so the
all-equal-shapes assumption is implicit in sharing the index space. -/
structure MaskEntry where
  present : Bool
  mask : ℕ × ℕ × ℕ → ℕ
  color : Option ℕ

/-- The merging loop of `merge_8bit_grayscale_tif_files` (source lines
125-131) voxelwise, from an arbitrary accumulated value: each present entry
whose mask is non-zero at the voxel overwrites the accumulated value with its
color. -/
def mergeAcc (entries : List MaskEntry) (p : ℕ × ℕ × ℕ) (acc : ℕ) : ℕ :=
  entries.foldl
    (fun a e => if e.present = true ∧ e.mask p ≠ 0 then e.color.getD 255 else a) acc

/-- The voxelwise value of the merged volume: the loop started on the
zero-initialized output array (`np.zeros(image.shape, ...)`). -/
def mergePix (entries : List MaskEntry) (p : ℕ × ℕ × ℕ) : ℕ := mergeAcc entries p 0

/-- `merge_8bit_grayscale_tif_files` (source lines 111-133).  The first path
is read unconditionally (`image = load_image(tiffs_path[0])`) to obtain the
output shape; when the list is empty (`tiffs_path[0]` raises `IndexError`) or
the first file is missing (`load_image` returns `None`, so `image.shape`
raises `AttributeError`), the call fails, modelled by `none`. -/
def merge_8bit_grayscale_tif_files (entries : List MaskEntry) :
    Option (ℕ × ℕ × ℕ → ℕ) :=
  match entries with
  | [] => none
  | e :: _ => if e.present = true then some (mergePix entries) else none

/-- `extract_8bit_grayscale_tif_files` (source lines 136-169): for each color
value, the binary mask that is 255 where the combined volume equals the color
and 0 elsewhere. -/
def extract_8bit_grayscale_tif_files (combined : ℕ × ℕ × ℕ → ℕ) (colors : List ℕ) :
    List (ℕ × ℕ × ℕ → ℕ) :=
  colors.map (fun c => fun p => if combined p = c then 255 else 0)

lemma mergeAcc_cons (e : MaskEntry) (l : List MaskEntry) (p : ℕ × ℕ × ℕ) (acc : ℕ) :
    mergeAcc (e :: l) p acc =
      mergeAcc l p (if e.present = true ∧ e.mask p ≠ 0 then e.color.getD 255 else acc) :=
  rfl

lemma mergeAcc_of_none {entries : List MaskEntry} {p : ℕ × ℕ × ℕ} {acc : ℕ}
    (h : ∀ e ∈ entries, ¬(e.present = true ∧ e.mask p ≠ 0)) :
    mergeAcc entries p acc = acc := by
  induction entries generalizing acc with
  | nil => rfl
  | cons e l ih =>
    rw [mergeAcc_cons, if_neg (h e (List.mem_cons_self e l))]
    exact ih (fun x hx => h x (List.mem_cons_of_mem e hx))

lemma mergeAcc_of_fired {entries : List MaskEntry} {p : ℕ × ℕ × ℕ} {v : ℕ}
    (hall : ∀ e ∈ entries, (e.present = true ∧ e.mask p ≠ 0) → e.color.getD 255 = v) :
    ∀ acc, (∃ e ∈ entries, e.present = true ∧ e.mask p ≠ 0) →
      mergeAcc entries p acc = v := by
  induction entries with
  | nil => rintro acc ⟨e, he, -⟩; exact absurd he (List.not_mem_nil e)
  | cons e l ih =>
    intro acc hex
    rw [mergeAcc_cons]
    by_cases hf : e.present = true ∧ e.mask p ≠ 0
    · rw [if_pos hf]
      by_cases hex2 : ∃ x ∈ l, x.present = true ∧ x.mask p ≠ 0
      · exact ih (fun x hx => hall x (List.mem_cons_of_mem e hx)) _ hex2
      · push_neg at hex2
        rw [mergeAcc_of_none (fun x hx hxf => hxf.2 (hex2 x hx hxf.1))]
        exact hall e (List.mem_cons_self e l) hf
    · rw [if_neg hf]
      obtain ⟨x, hx, hxf⟩ := hex
      rcases List.mem_cons.mp hx with rfl | hxl
      · exact absurd hxf hf
      · exact ih (fun y hy => hall y (List.mem_cons_of_mem e hy)) acc ⟨x, hxl, hxf⟩

lemma mergeAcc_skip {l1 l2 : List MaskEntry} {e : MaskEntry} {p : ℕ × ℕ × ℕ} {acc : ℕ}
    (he : e.present = false) :
    mergeAcc (l1 ++ e :: l2) p acc = mergeAcc (l1 ++ l2) p acc := by
  unfold mergeAcc
  rw [List.foldl_append, List.foldl_append, List.foldl_cons,
    if_neg (by rw [he]; rintro ⟨h, -⟩; cases h)]

/-- C10 counterexample: when the FIRST entry's file is missing, the merge does
not silently skip it — the unconditional shape read fails — while the merge of
the list without that entry succeeds, so the two results differ. -/
theorem C10_counterexample :
    merge_8bit_grayscale_tif_files
        [⟨false, fun _ => 255, some 7⟩, ⟨true, fun _ => 0, some 9⟩] = none ∧
      merge_8bit_grayscale_tif_files [⟨true, fun _ => 0, some 9⟩] ≠ none := by
  exact ⟨rfl, by simp [merge_8bit_grayscale_tif_files]⟩

/-- C10 amended: the assembler silently skips any entry other than the first
whose mask file does not exist — the merged volume is the one produced from
the list with that entry removed — but a missing first file makes the whole
merge fail (its shape is read unconditionally) instead of being skipped. -/
theorem C10_missing_nonfirst_entry_skipped (l1 l2 : List MaskEntry) (e : MaskEntry)
    (h1 : l1 ≠ []) (he : e.present = false) :
    merge_8bit_grayscale_tif_files (l1 ++ e :: l2) =
      merge_8bit_grayscale_tif_files (l1 ++ l2) := by
  obtain ⟨a, t, rfl⟩ := List.exists_cons_of_ne_nil h1
  unfold merge_8bit_grayscale_tif_files
  simp only [List.cons_append]
  by_cases ha : a.present = true
  · rw [if_pos ha, if_pos ha]
    congr 1
    funext p
    exact @mergeAcc_skip (a :: t) l2 e p 0 he
  · rw [if_neg ha, if_neg ha]

/-- Witness for the amended C10: a missing second entry is skipped. -/
theorem C10_witness :
    ([(⟨true, fun _ => 0, some 9⟩ : MaskEntry)] ≠ []) ∧
      (⟨false, fun _ => 255, some 7⟩ : MaskEntry).present = false ∧
      merge_8bit_grayscale_tif_files
          ([⟨true, fun _ => 0, some 9⟩] ++ ⟨false, fun _ => 255, some 7⟩ :: []) =
        merge_8bit_grayscale_tif_files ([⟨true, fun _ => 0, some 9⟩] ++ []) :=
  ⟨by simp, rfl,
    C10_missing_nonfirst_entry_skipped [⟨true, fun _ => 0, some 9⟩] []
      ⟨false, fun _ => 255, some 7⟩ (by simp) rfl⟩

/-- C8: for a catalog of distinct non-zero labels and pairwise-disjoint binary
masks (foreground 255) on a common index space, extracting regions from the
assembled labeled volume reproduces each original mask exactly:
the merge succeeds and `extract (assemble masks) = masks`. -/
theorem C8_extract_assemble_round_trip (entries : List MaskEntry)
    (hne : entries ≠ [])
    (hpres : ∀ e ∈ entries, e.present = true)
    (hnz : ∀ e ∈ entries, e.color.getD 255 ≠ 0)
    (hnodup : (entries.map (fun e => e.color.getD 255)).Nodup)
    (hbin : ∀ e ∈ entries, ∀ p, e.mask p = 0 ∨ e.mask p = 255)
    (hdisj : entries.Pairwise (fun e1 e2 => ∀ p, e1.mask p = 0 ∨ e2.mask p = 0)) :
    merge_8bit_grayscale_tif_files entries = some (mergePix entries) ∧
      extract_8bit_grayscale_tif_files (mergePix entries)
          (entries.map (fun e => e.color.getD 255)) =
        entries.map (fun e => e.mask) := by
  have hsym : Symmetric (fun e1 e2 : MaskEntry => ∀ p, e1.mask p = 0 ∨ e2.mask p = 0) :=
    fun e1 e2 h p => (h p).symm
  constructor
  · cases entries with
    | nil => exact absurd rfl hne
    | cons a t =>
      show (if a.present = true then some (mergePix (a :: t)) else none) =
        some (mergePix (a :: t))
      rw [if_pos (hpres a (List.mem_cons_self a t))]
  · unfold extract_8bit_grayscale_tif_files
    rw [List.map_map]
    apply List.map_congr_left
    intro e he
    funext p
    simp only [Function.comp_apply]
    rcases hbin e he p with hm0 | hm255
    · rw [hm0]
      have hnec : mergePix entries p ≠ e.color.getD 255 := by
        by_cases hex : ∃ x ∈ entries, x.present = true ∧ x.mask p ≠ 0
        · obtain ⟨x, hx, hxf⟩ := hex
          have hxe : x ≠ e := by rintro rfl; exact hxf.2 hm0
          have hallx : ∀ y ∈ entries, (y.present = true ∧ y.mask p ≠ 0) →
              y.color.getD 255 = x.color.getD 255 := by
            intro y hy hyf
            by_cases hyx : y = x
            · rw [hyx]
            · rcases (hdisj.forall hsym) hy hx hyx p with h0 | h0
              · exact absurd h0 hyf.2
              · exact absurd h0 hxf.2
          rw [show mergePix entries p = x.color.getD 255 from
            mergeAcc_of_fired hallx 0 ⟨x, hx, hxf⟩]
          intro hcc
          exact hxe (List.inj_on_of_nodup_map hnodup hx he hcc)
        · push_neg at hex
          rw [show mergePix entries p = 0 from
            mergeAcc_of_none (fun x hx hxf => hxf.2 (hex x hx hxf.1))]
          exact fun h0 => hnz e he h0.symm
      rw [if_neg hnec]
    · rw [hm255]
      have hfe : e.present = true ∧ e.mask p ≠ 0 :=
        ⟨hpres e he, by rw [hm255]; exact (by norm_num)⟩
      have halle : ∀ y ∈ entries, (y.present = true ∧ y.mask p ≠ 0) →
          y.color.getD 255 = e.color.getD 255 := by
        intro y hy hyf
        by_cases hye : y = e
        · rw [hye]
        · rcases (hdisj.forall hsym) hy he hye p with h0 | h0
          · exact absurd h0 hyf.2
          · exact absurd h0 hfe.2
      rw [show mergePix entries p = e.color.getD 255 from
        mergeAcc_of_fired halle 0 ⟨e, he, hfe⟩]
      rw [if_pos rfl]

/-- Two disjoint single-voxel masks used as a concrete witness. -/
def maskA : MaskEntry := ⟨true, fun p => if p = (0, 0, 0) then 255 else 0, some 10⟩

/-- Second disjoint single-voxel mask for the witness. -/
def maskB : MaskEntry := ⟨true, fun p => if p = (0, 0, 1) then 255 else 0, some 20⟩

/-- Witness for C8 on two concrete disjoint masks with labels 10 and 20. -/
theorem C8_witness :
    ([maskA, maskB] ≠ []) ∧
      merge_8bit_grayscale_tif_files [maskA, maskB] = some (mergePix [maskA, maskB]) ∧
      extract_8bit_grayscale_tif_files (mergePix [maskA, maskB])
          ([maskA, maskB].map (fun e => e.color.getD 255)) =
        [maskA, maskB].map (fun e => e.mask) := by
  have hmem : ∀ e ∈ [maskA, maskB], e = maskA ∨ e = maskB := by
    intro e he
    rcases List.mem_cons.mp he with rfl | he2
    · exact Or.inl rfl
    · exact Or.inr (List.mem_singleton.mp he2)
  have h := C8_extract_assemble_round_trip [maskA, maskB]
    (List.cons_ne_nil _ _)
    (by intro e he; rcases hmem e he with rfl | rfl <;> rfl)
    (by intro e he; rcases hmem e he with rfl | rfl <;> decide)
    (by decide)
    (by
      intro e he p
      rcases hmem e he with rfl | rfl
      · by_cases hp : p = (0, 0, 0)
        · right; rw [hp]; decide
        · left; show (if p = (0, 0, 0) then 255 else 0) = 0; rw [if_neg hp]
      · by_cases hp : p = (0, 0, 1)
        · right; rw [hp]; decide
        · left; show (if p = (0, 0, 1) then 255 else 0) = 0; rw [if_neg hp])
    (by
      refine List.Pairwise.cons ?_ (List.pairwise_singleton _ _)
      intro e he p
      rw [List.mem_singleton.mp he]
      by_cases hp : p = (0, 0, 0)
      · right; rw [hp]; decide
      · left; show (if p = (0, 0, 0) then 255 else 0) = 0; rw [if_neg hp])
  exact ⟨List.cons_ne_nil _ _, h.1, h.2⟩

/-! ## RegionCatalog: `utils/file_utils.py`, `parse_anatomical_structures_txt_file` -/

/-- `parse_anatomical_structures_txt_file` (source lines 51-63), over the
already split lines: each record of the file is `region_name|color`, so a
line is a `(region_name, color)` pair with `color` the parsed integer.
Returns the tif paths (`os.path.join(regions_path, region_name)`, modelled as
slash-concatenation; the claims do not depend on path syntax), the color
values, and the `color_to_region_map` dict, modelled as the lookup function
built by the successive `color_to_region_map[int(color)] = region_name`
assignments: a later line with the same color silently overwrites the earlier
binding, and the function raises no error on duplicates. -/
def parse_anatomical_structures_txt_file (lines : List (String × Int))
    (regionsPath : String) :
    List String × List Int × (Int → Option String) :=
  (lines.map (fun l => regionsPath ++ "/" ++ l.1),
   lines.map (fun l => l.2),
   lines.foldl (fun m l => fun c => if c = l.2 then some l.1 else m c) (fun _ => none))

lemma parse_foldl_preserve {l2 : List (String × Int)} {c : Int}
    (h : ∀ l ∈ l2, l.2 ≠ c) (m : Int → Option String) :
    (l2.foldl (fun m l => fun c => if c = l.2 then some l.1 else m c) m) c = m c := by
  induction l2 generalizing m with
  | nil => rfl
  | cons a l2 ih =>
    rw [List.foldl_cons, ih (fun x hx => h x (List.mem_cons_of_mem a hx))]
    exact if_neg (fun hc => h a (List.mem_cons_self a l2) hc.symm)

/-- C6 counterexample: loading a catalog in which the label value 10 appears
on two lines does NOT fail — the parser returns normally and the dict maps 10
to the region name of the LATER line, silently dropping the earlier
association.  There is no `DuplicateLabelError` in the code. -/
theorem C6_counterexample :
    (parse_anatomical_structures_txt_file [("a", 10), ("b", 10)] "").2.2 10 = some "b" ∧
      (parse_anatomical_structures_txt_file [("a", 10), ("b", 10)] "").2.2 10 ≠
        some "a" := by
  refine ⟨rfl, ?_⟩
  intro h
  have hb : some "b" = some "a" := by
    calc some "b" = (parse_anatomical_structures_txt_file
          [("a", 10), ("b", 10)] "").2.2 10 := rfl
    _ = some "a" := h
  exact absurd (Option.some_inj.mp hb) (by decide)

/-- C6 amended: on a duplicated label value the parser does not raise; the
returned `color_to_region_map` binds the duplicated label to the region name
of the last line carrying it (later lines silently overwrite earlier ones). -/
theorem C6_duplicate_label_last_line_wins (l1 l2 : List (String × Int))
    (n : String) (c : Int) (path : String) (h : ∀ l ∈ l2, l.2 ≠ c) :
    (parse_anatomical_structures_txt_file (l1 ++ (n, c) :: l2) path).2.2 c = some n := by
  show ((l1 ++ (n, c) :: l2).foldl
      (fun m l => fun c => if c = l.2 then some l.1 else m c) (fun _ => none)) c = some n
  rw [List.foldl_append, List.foldl_cons, parse_foldl_preserve h]
  exact if_pos rfl

/-- Witness for the amended C6 on the duplicated-label catalog. -/
theorem C6_witness :
    (∀ l ∈ ([] : List (String × Int)), l.2 ≠ 10) ∧
      (parse_anatomical_structures_txt_file ([("a", 10)] ++ ("b", 10) :: []) "").2.2 10 =
        some "b" :=
  ⟨by simp, C6_duplicate_label_last_line_wins [("a", 10)] [] "b" 10 "" (by simp)⟩

end MECEMap
